import Mathlib

/-!
Verification of the retrieval-and-ranking core of a retrieval-augmented
matching workflow.  The development shallowly embeds:

* the chunk aggregation and ranking of group_1/retrieval.py
  (group_and_rank_profiles, find_top_matches),
* the document building and skipping logic of group_1/indexing.py
  (create_faiss_vector_store, modelled as create_faiss_documents),
* the ticket retrieval filter of group_3/analyser.py
  (AITicketAnalyzer.get_similar_tickets),

together with models of external library behaviour (FAISS similarity
search, FAISS save and load, the recursive character text splitter)
written from the specification where the library source is not part of
the repository.  Real arithmetic is embedded as rational arithmetic.
-/

/-! ## Python rounding

Python round(x, 2) rounds to the nearest multiple of 1/100, ties going
to the even multiple (banker's rounding). -/

/-- Round a rational to the nearest integer, ties to even. -/
def roundHalfEven (q : ℚ) : ℤ :=
  if q - ⌊q⌋ < 1/2 then ⌊q⌋
  else if 1/2 < q - ⌊q⌋ then ⌊q⌋ + 1
  else if ⌊q⌋ % 2 = 0 then ⌊q⌋ else ⌊q⌋ + 1

/-- Python round(q, 2): round to the nearest multiple of 1/100, ties to even. -/
def pyRound2 (q : ℚ) : ℚ := (roundHalfEven (q * 100) : ℚ) / 100

/-! ## Data model of group_1/retrieval.py

A retrieved chunk is a langchain Document carrying its page content and
the metadata entry for the key "member_name".  The metadata value is
modelled as an Option String: none models a missing key, and the Python
truthiness test also rejects the empty string. -/

/-- A langchain Document as used in group_1: page content plus the
metadata entry for the key "member_name" (none when the key is absent). -/
structure Document where
  page_content : String
  member_name : Option String
deriving DecidableEq

/-- The member name of a document if it passes the Python truthiness test
of group_and_rank_profiles (if member_name:), none otherwise. -/
def truthyName (d : Document) : Option String :=
  match d.member_name with
  | none => none
  | some s => if s = "" then none else some s

/-- Per-member accumulator of group_and_rank_profiles: the defaultdict
value holding total_score, chunk_count and chunks. -/
structure MemberAgg where
  total_score : ℚ
  chunk_count : ℕ
  chunks : List String
deriving DecidableEq

/-- One loop iteration of group_and_rank_profiles on one retrieved
(doc, score) pair: add 1 - score, bump the count, append the content. -/
def bump (a : MemberAgg) (score : ℚ) (content : String) : MemberAgg :=
  ⟨a.total_score + (1 - score), a.chunk_count + 1, a.chunks ++ [content]⟩

/-- Update the insertion-ordered association list modelling the
defaultdict of group_and_rank_profiles: bump the entry of key n if
present, otherwise append a fresh entry (defaultdict default, bumped). -/
def updateAgg : List (String × MemberAgg) → String → ℚ → String → List (String × MemberAgg)
  | [], n, score, content => [(n, bump ⟨0, 0, []⟩ score content)]
  | (m, a) :: rest, n, score, content =>
    if m = n then (m, bump a score content) :: rest
    else (m, a) :: updateAgg rest n score content

/-- The grouping loop of group_and_rank_profiles with explicit
accumulator: documents whose member_name is falsy are skipped. -/
def accAux : List (String × MemberAgg) → List (Document × ℚ) → List (String × MemberAgg)
  | acc, [] => acc
  | acc, (doc, score) :: rest =>
    match truthyName doc with
    | some n => accAux (updateAgg acc n score doc.page_content) rest
    | none => accAux acc rest

/-- The grouping loop of group_and_rank_profiles started on the empty
defaultdict. -/
def accumulate (retrieved_chunks : List (Document × ℚ)) : List (String × MemberAgg) :=
  accAux [] retrieved_chunks

/-- A ranked profile dictionary of group_and_rank_profiles after the
scoring pass added match_score_percent and member_name. -/
structure RankedProfile where
  member_name : String
  total_score : ℚ
  chunk_count : ℕ
  chunks : List String
  match_score_percent : ℚ
deriving DecidableEq

/-- The scoring pass of group_and_rank_profiles on one defaultdict entry:
avg_score = total_score / chunk_count, match_score_percent =
round(avg_score * 100, 2). -/
def mkProfile (e : String × MemberAgg) : RankedProfile :=
  ⟨e.1, e.2.total_score, e.2.chunk_count, e.2.chunks,
    pyRound2 (e.2.total_score / (e.2.chunk_count : ℚ) * 100)⟩

/-- The sort order used by group_and_rank_profiles: descending
match_score_percent (sorted with reverse=True). -/
def profGE (a b : RankedProfile) : Prop :=
  b.match_score_percent ≤ a.match_score_percent

instance : DecidableRel profGE :=
  fun a b => inferInstanceAs (Decidable (b.match_score_percent ≤ a.match_score_percent))

instance : IsTotal RankedProfile profGE :=
  ⟨fun a b => (le_total b.match_score_percent a.match_score_percent)⟩

instance : IsTrans RankedProfile profGE :=
  ⟨fun _ _ _ hab hbc => le_trans hbc hab⟩

/-- group_and_rank_profiles of group_1/retrieval.py: group the retrieved
(doc, score) pairs by member name, score each member, and sort the
profiles by match_score_percent in descending order.  Python sorted is a
stable sort and the defaultdict values come out in insertion order, so
the sort is modelled by the stable insertionSort on the first-seen order
list of profiles. -/
def group_and_rank_profiles (retrieved_chunks : List (Document × ℚ)) : List RankedProfile :=
  ((accumulate retrieved_chunks).map mkProfile).insertionSort profGE

/-! ## Specification-side descriptions of the aggregation -/

/-- The retrieved pairs that contribute to the entity named n: those
whose document carries the truthy member name n. -/
def entityPairs (rc : List (Document × ℚ)) (n : String) : List (Document × ℚ) :=
  rc.filter (fun pr => decide (truthyName pr.1 = some n))

/-- The raw distances of the matches of entity n. -/
def entityDists (rc : List (Document × ℚ)) (n : String) : List ℚ :=
  (entityPairs rc n).map Prod.snd

/-- Arithmetic mean of a list of rationals. -/
def mean (l : List ℚ) : ℚ := l.sum / (l.length : ℚ)

/-- Fold the loop body of group_and_rank_profiles over a list of pairs. -/
def extendAgg : MemberAgg → List (Document × ℚ) → MemberAgg
  | a, [] => a
  | a, (d, s) :: l => extendAgg (bump a s d.page_content) l

/-- Index of the first retrieved pair carrying the truthy member name n
(the length of the list when n never appears). -/
def firstIdx (rc : List (Document × ℚ)) (n : String) : ℕ :=
  rc.findIdx (fun pr => decide (truthyName pr.1 = some n))

/-- The member names of rc not in seen, in order of first appearance. -/
def freshNames (seen : List String) : List (Document × ℚ) → List String
  | [] => []
  | (doc, _) :: rest =>
    match truthyName doc with
    | some n => if n ∈ seen then freshNames seen rest else n :: freshNames (n :: seen) rest
    | none => freshNames seen rest

/-- Keys of the association list modelling the defaultdict. -/
def aggKeys (m : List (String × MemberAgg)) : List String := m.map Prod.fst

/-! ## Model of the FAISS vector store (external library)

find_top_matches in group_1/retrieval.py delegates the search to
FAISS.similarity_search_with_score, and persistence to FAISS.save_local
and FAISS.load_local, none of which are part of the repository. -/

/-- Modelled from the spec: the FAISS vector store of section 4.4 owns
the (chunk, vector) pairs of one corpus in insertion order.  The FAISS
library implementation is not part of the repository. -/
structure VectorIndex where
  entries : List (Document × List ℚ)

/-- Squared Euclidean distance between two vectors. -/
def sqDist (u v : List ℚ) : ℚ :=
  ((u.zip v).map (fun p => (p.1 - p.2) ^ 2)).sum

/-- Ordering of match results by ascending distance. -/
def distLE (a b : Document × ℚ) : Prop := a.2 ≤ b.2

instance : DecidableRel distLE :=
  fun a b => inferInstanceAs (Decidable (a.2 ≤ b.2))

instance : IsTotal (Document × ℚ) distLE := ⟨fun a b => le_total a.2 b.2⟩

instance : IsTrans (Document × ℚ) distLE := ⟨fun _ _ _ => le_trans⟩

/-- Modelled from the spec: FAISS.similarity_search_with_score, which is
library code outside the repository.  Per section 4.4, query(text, k)
embeds the text with the index's embedder, scores every stored vector,
and returns the k nearest ordered by ascending distance, ties broken by
insertion order (a stable sort). -/
def similarity_search_with_score (embed : String → List ℚ) (idx : VectorIndex)
    (text : String) (k : ℕ) : List (Document × ℚ) :=
  (((idx.entries.map (fun e => (e.1, sqDist (embed text) e.2))).insertionSort distLE).take k)

/-- find_top_matches of group_1/retrieval.py: a direct call to
similarity_search_with_score with the given query text and k. -/
def find_top_matches (embed : String → List ℚ) (query_text : String)
    (vector_store : VectorIndex) (k : ℕ := 20) : List (Document × ℚ) :=
  similarity_search_with_score embed vector_store query_text k

/-- Modelled from the spec: the on-disk form written by FAISS.save_local
(library code outside the repository), an opaque serialization of the
stored vectors and chunks per section 4.4. -/
structure SavedStore where
  vectors : List (List ℚ)
  chunks : List Document

/-- Modelled from the spec: FAISS.save_local as used at the end of
create_faiss_vector_store in group_1/indexing.py. -/
def save_local (idx : VectorIndex) : SavedStore :=
  ⟨idx.entries.map Prod.snd, idx.entries.map Prod.fst⟩

/-- Modelled from the spec: FAISS.load_local as used by
load_faiss_vector_store in group_1/retrieval.py, reassembling the stored
(chunk, vector) pairs. -/
def load_local (s : SavedStore) : VectorIndex :=
  ⟨s.chunks.zip s.vectors⟩

/-! ## Model of the chunker and the document building of group_1/indexing.py -/

/-- Modelled from the spec: RecursiveCharacterTextSplitter.split_documents
is library code outside the repository.  Per section 4.2, chunk i+1
begins chunk_size - chunk_overlap characters after chunk i begins and a
document no longer than chunk_size yields exactly one chunk (the
natural-boundary preference of the library splitter is not modelled; it
cannot apply in the single-chunk degenerate case).  An overlap at least
as large as the chunk size is a configuration error (section 8) and
yields no chunks. -/
def splitText (chunkSize overlap : ℕ) (s : List Char) : List (List Char) :=
  if h0 : chunkSize ≤ overlap then []
  else if h1 : s.length ≤ chunkSize then [s]
  else s.take chunkSize :: splitText chunkSize overlap (s.drop (chunkSize - overlap))
termination_by s.length
decreasing_by
  simp only [List.length_drop]
  omega

/-- The document-building loop of create_faiss_vector_store in
group_1/indexing.py over the per-member concatenated profile texts:
a member whose text strips to nothing is skipped (lines 56-59),
otherwise the text becomes one Document tagged with the member name and
is split into chunks of size 1000 with overlap 200 which all inherit the
metadata.  Reading the member directories, the embedding model and the
FAISS store construction are external I/O and library code and are not
modelled. -/
def create_faiss_documents : List (String × String) → List Document
  | [] => []
  | (member_dir, full_profile_text) :: rest =>
    if full_profile_text.toList.all Char.isWhitespace then
      create_faiss_documents rest
    else
      ((splitText 1000 200 full_profile_text.toList).map
        (fun cs => ⟨String.mk cs, some member_dir⟩)) ++ create_faiss_documents rest

/-! ## Model of AITicketAnalyzer.get_similar_tickets of group_3/analyser.py -/

/-- The metadata dictionary of one stored ticket: the entries read by
get_similar_tickets via meta.get(key, default ''), none modelling an
absent key. -/
structure TicketMeta where
  category : Option String
  subcategory : Option String
  priority : Option String
  brief_description : Option String
  caller_department : Option String
  software_required : Option String
  operator_group : Option String
  status : Option String
  urgency : Option String
  impact : Option String
  call_date : Option String
deriving DecidableEq

/-- One dictionary appended to similar_tickets by get_similar_tickets.
The document content is modelled as its character sequence. -/
structure SimilarTicket where
  similarity : ℚ
  category : String
  subcategory : String
  priority : String
  brief_description : String
  department : String
  software : String
  operator_group : String
  status : String
  urgency : String
  impact : String
  call_date : String
  document_content : List Char
deriving DecidableEq

/-- AITicketAnalyzer.get_similar_tickets of group_3/analyser.py on the
zipped (document, metadata, distance) triples returned by the ChromaDB
query: keep a ticket only when similarity = 1 - distance exceeds 0.3,
and truncate its document content to 300 characters plus "..." when it
is longer than 300 characters. -/
def get_similar_tickets (results : List (List Char × TicketMeta × ℚ)) : List SimilarTicket :=
  results.filterMap (fun r =>
    let similarity : ℚ := 1 - r.2.2
    if 3/10 < similarity then
      some ⟨similarity,
        r.2.1.category.getD "", r.2.1.subcategory.getD "", r.2.1.priority.getD "",
        r.2.1.brief_description.getD "", r.2.1.caller_department.getD "",
        r.2.1.software_required.getD "", r.2.1.operator_group.getD "",
        r.2.1.status.getD "", r.2.1.urgency.getD "", r.2.1.impact.getD "",
        r.2.1.call_date.getD "",
        if 300 < r.1.length then r.1.take 300 ++ "...".toList else r.1⟩
    else none)

/-! ## Rounding lemmas -/

/-- Rounding a nonnegative rational gives a nonnegative integer. -/
theorem roundHalfEven_nonneg {q : ℚ} (h : 0 ≤ q) : 0 ≤ roundHalfEven q := by
  have hf : (0 : ℤ) ≤ ⌊q⌋ := Int.floor_nonneg.mpr h
  unfold roundHalfEven
  split_ifs <;> omega

/-- Rounding never exceeds an integer upper bound of the argument. -/
theorem roundHalfEven_le {q : ℚ} {n : ℤ} (h : q ≤ n) : roundHalfEven q ≤ n := by
  have hf : ⌊q⌋ ≤ n := by
    have h2 := Int.floor_mono h
    simpa using h2
  unfold roundHalfEven
  split_ifs with h1 h2 h3
  · exact hf
  · have h4 : ((⌊q⌋ : ℚ)) < (n : ℚ) := by
      have := Int.floor_le q
      linarith
    have h5 : ⌊q⌋ < n := by exact_mod_cast h4
    omega
  · exact hf
  · push_neg at h1
    have h4 : ((⌊q⌋ : ℚ)) < (n : ℚ) := by linarith
    have h5 : ⌊q⌋ < n := by exact_mod_cast h4
    omega

/-- Python round(q, 2) of a nonnegative rational is nonnegative. -/
theorem pyRound2_nonneg {q : ℚ} (h : 0 ≤ q) : 0 ≤ pyRound2 q := by
  unfold pyRound2
  have h1 : (0 : ℤ) ≤ roundHalfEven (q * 100) := roundHalfEven_nonneg (by linarith)
  have h2 : (0 : ℚ) ≤ (roundHalfEven (q * 100) : ℚ) := by exact_mod_cast h1
  positivity

/-- Python round(q, 2) of a rational at most 100 is at most 100. -/
theorem pyRound2_le_100 {q : ℚ} (h : q ≤ 100) : pyRound2 q ≤ 100 := by
  unfold pyRound2
  have h1 : roundHalfEven (q * 100) ≤ (10000 : ℤ) := roundHalfEven_le (by push_cast; linarith)
  have h2 : (roundHalfEven (q * 100) : ℚ) ≤ 10000 := by exact_mod_cast h1
  linarith

/-! ## The grouping loop computes per-entity sums, counts and chunk lists -/

theorem extendAgg_total : ∀ (l : List (Document × ℚ)) (a : MemberAgg),
    (extendAgg a l).total_score = a.total_score + (l.map (fun pr => 1 - pr.2)).sum
  | [], a => by simp [extendAgg]
  | (d, s) :: l, a => by
    simp only [extendAgg, extendAgg_total l, bump, List.map_cons, List.sum_cons]
    ring

theorem extendAgg_count : ∀ (l : List (Document × ℚ)) (a : MemberAgg),
    (extendAgg a l).chunk_count = a.chunk_count + l.length
  | [], a => by simp [extendAgg]
  | (d, s) :: l, a => by
    simp only [extendAgg, extendAgg_count l, bump, List.length_cons]
    omega

theorem extendAgg_chunks : ∀ (l : List (Document × ℚ)) (a : MemberAgg),
    (extendAgg a l).chunks = a.chunks ++ l.map (fun pr => pr.1.page_content)
  | [], a => by simp [extendAgg]
  | (d, s) :: l, a => by
    simp only [extendAgg, extendAgg_chunks l, bump, List.map_cons]
    simp

/-- First-match lookup in the association list modelling the defaultdict. -/
def lookupAgg (n : String) : List (String × MemberAgg) → Option MemberAgg
  | [] => none
  | (m, a) :: rest => if m = n then some a else lookupAgg n rest

theorem lookupAgg_updateAgg (k n : String) (s : ℚ) (c : String) :
    ∀ m : List (String × MemberAgg),
    lookupAgg k (updateAgg m n s c) =
      if k = n then some (bump ((lookupAgg n m).getD ⟨0, 0, []⟩) s c) else lookupAgg k m
  | [] => by
    by_cases h : k = n <;> simp [updateAgg, lookupAgg, h]
    · intro h2
      exact absurd h2.symm h
  | (m0, a0) :: rest => by
    by_cases h0 : m0 = n
    · subst h0
      by_cases h : k = m0
      · subst h
        simp [updateAgg, lookupAgg]
      · have h3 : ¬ m0 = k := fun h2 => h h2.symm
        simp [updateAgg, lookupAgg, h, h3]
    · by_cases h : k = n
      · subst h
        have hm0 : ¬ m0 = k := h0
        simp [updateAgg, lookupAgg, h0, hm0, lookupAgg_updateAgg k k s c rest]
      · by_cases h2 : m0 = k
        · subst h2
          simp [updateAgg, lookupAgg, h0, lookupAgg_updateAgg m0 n s c rest, h]
        · simp [updateAgg, lookupAgg, h0, h2, lookupAgg_updateAgg k n s c rest, h]

theorem entityPairs_cons_none {doc : Document} {score : ℚ} {rest : List (Document × ℚ)}
    (h : truthyName doc = none) (k : String) :
    entityPairs ((doc, score) :: rest) k = entityPairs rest k := by
  simp [entityPairs, List.filter_cons, h]

theorem entityPairs_cons_some {doc : Document} {score : ℚ} {rest : List (Document × ℚ)}
    {n : String} (h : truthyName doc = some n) (k : String) :
    entityPairs ((doc, score) :: rest) k =
      if k = n then (doc, score) :: entityPairs rest k else entityPairs rest k := by
  by_cases hk : k = n
  · subst hk
    simp [entityPairs, List.filter_cons, h]
  · have h2 : ¬ truthyName doc = some k := by
      rw [h]
      simp
      exact fun h3 => hk h3.symm
    simp [entityPairs, List.filter_cons, h2, hk]

/-- The grouping loop computes, for every key, the fold of the loop body
over exactly that key's matching pairs, starting from the entry already
in the accumulator (or the defaultdict default for a fresh key). -/
theorem lookupAgg_accAux : ∀ (rc : List (Document × ℚ)) (m : List (String × MemberAgg))
    (k : String),
    lookupAgg k (accAux m rc) =
      if lookupAgg k m = none ∧ entityPairs rc k = [] then none
      else some (extendAgg ((lookupAgg k m).getD ⟨0, 0, []⟩) (entityPairs rc k))
  | [], m, k => by
    cases h : lookupAgg k m <;> simp [accAux, entityPairs, extendAgg, h]
  | (doc, score) :: rest, m, k => by
    cases htn : truthyName doc with
    | none =>
      simp only [accAux, htn, lookupAgg_accAux rest m k, entityPairs_cons_none htn]
    | some n0 =>
      simp only [accAux, htn, lookupAgg_accAux rest (updateAgg m n0 score doc.page_content) k,
        entityPairs_cons_some htn, lookupAgg_updateAgg]
      by_cases hk : k = n0
      · subst hk
        simp [extendAgg]
      · simp [hk]

/-- Every entry of the grouping loop result is the fold of the loop body
over that entity's nonempty list of matching pairs. -/
theorem lookupAgg_accumulate (rc : List (Document × ℚ)) (k : String) :
    lookupAgg k (accumulate rc) =
      if entityPairs rc k = [] then none
      else some (extendAgg ⟨0, 0, []⟩ (entityPairs rc k)) := by
  have h := lookupAgg_accAux rc [] k
  simpa [accumulate, lookupAgg] using h

/-! ## Keys of the defaultdict: nodup and first-seen order -/

theorem mem_aggKeys {k : String} {m : List (String × MemberAgg)} :
    k ∈ aggKeys m ↔ ∃ b, (k, b) ∈ m := by
  simp only [aggKeys, List.mem_map]
  constructor
  · rintro ⟨⟨k2, b⟩, hmem, rfl⟩
    exact ⟨b, hmem⟩
  · rintro ⟨b, hmem⟩
    exact ⟨(k, b), hmem, rfl⟩

theorem aggKeys_updateAgg (n : String) (s : ℚ) (c : String) :
    ∀ m : List (String × MemberAgg),
    aggKeys (updateAgg m n s c) = if n ∈ aggKeys m then aggKeys m else aggKeys m ++ [n]
  | [] => by simp [updateAgg, aggKeys]
  | (m0, a0) :: rest => by
    by_cases h0 : m0 = n
    · subst h0
      simp [updateAgg, aggKeys]
    · have h1 : ¬ n = m0 := fun hx => h0 hx.symm
      have hstep : updateAgg ((m0, a0) :: rest) n s c = (m0, a0) :: updateAgg rest n s c := by
        simp [updateAgg, h0]
      rw [hstep]
      have hks : aggKeys ((m0, a0) :: updateAgg rest n s c) =
          m0 :: aggKeys (updateAgg rest n s c) := rfl
      have hks2 : aggKeys ((m0, a0) :: rest) = m0 :: aggKeys rest := rfl
      rw [hks, hks2, aggKeys_updateAgg n s c rest]
      by_cases h2 : n ∈ aggKeys rest
      · rw [if_pos h2, if_pos (by simp [h2])]
      · rw [if_neg h2, if_neg (by simp [h1, h2]), List.cons_append]

theorem nodup_aggKeys_updateAgg {m : List (String × MemberAgg)} (n : String) (s : ℚ)
    (c : String) (h : (aggKeys m).Nodup) : (aggKeys (updateAgg m n s c)).Nodup := by
  rw [aggKeys_updateAgg]
  by_cases h2 : n ∈ aggKeys m
  · simpa [h2] using h
  · simp only [h2, if_false, List.nodup_append, List.nodup_cons]
    refine ⟨h, by simp, fun x hx hx2 => ?_⟩
    rw [List.mem_singleton] at hx2
    subst hx2
    exact h2 hx

theorem nodup_aggKeys_accAux : ∀ (rc : List (Document × ℚ)) (m : List (String × MemberAgg)),
    (aggKeys m).Nodup → (aggKeys (accAux m rc)).Nodup
  | [], m, h => h
  | (doc, score) :: rest, m, h => by
    cases htn : truthyName doc with
    | none => simpa [accAux, htn] using nodup_aggKeys_accAux rest m h
    | some n0 =>
      simpa [accAux, htn] using
        nodup_aggKeys_accAux rest _ (nodup_aggKeys_updateAgg n0 score doc.page_content h)

theorem nodup_aggKeys_accumulate (rc : List (Document × ℚ)) :
    (aggKeys (accumulate rc)).Nodup :=
  nodup_aggKeys_accAux rc [] (by simp [aggKeys])

/-- With nodup keys, association-list membership agrees with first-match
lookup. -/
theorem mem_iff_lookupAgg : ∀ {m : List (String × MemberAgg)}, (aggKeys m).Nodup →
    ∀ {k : String} {a : MemberAgg}, ((k, a) ∈ m ↔ lookupAgg k m = some a)
  | [], _, k, a => by simp [lookupAgg]
  | (m0, a0) :: rest, hnd, k, a => by
    have hnd2 : (aggKeys rest).Nodup := by
      simpa [aggKeys] using hnd.of_cons
    have hm0 : m0 ∉ aggKeys rest := by
      have := hnd
      simp only [aggKeys, List.map_cons, List.nodup_cons] at this
      simpa [aggKeys] using this.1
    by_cases h : m0 = k
    · subst h
      simp only [List.mem_cons, lookupAgg, if_pos rfl]
      constructor
      · rintro (h2 | h2)
        · simp [Prod.ext_iff] at h2
          simp [h2]
        · exact absurd (mem_aggKeys.mpr ⟨a, h2⟩) hm0
      · intro h2
        simp at h2
        simp [h2]
    · simp only [List.mem_cons, lookupAgg, if_neg h]
      rw [← mem_iff_lookupAgg hnd2]
      constructor
      · rintro (h2 | h2)
        · exact absurd (congrArg Prod.fst h2).symm h
        · exact h2
      · exact fun h2 => Or.inr h2

theorem mem_accumulate (rc : List (Document × ℚ)) {k : String} {a : MemberAgg}
    (h : (k, a) ∈ accumulate rc) :
    entityPairs rc k ≠ [] ∧ a = extendAgg ⟨0, 0, []⟩ (entityPairs rc k) := by
  have h2 := (mem_iff_lookupAgg (nodup_aggKeys_accumulate rc)).mp h
  rw [lookupAgg_accumulate] at h2
  by_cases hp : entityPairs rc k = []
  · simp [hp] at h2
  · simp only [hp, if_false, Option.some_inj] at h2
    exact ⟨hp, h2.symm⟩

theorem firstIdx_cons (doc : Document) (score : ℚ) (rest : List (Document × ℚ)) (n : String) :
    firstIdx ((doc, score) :: rest) n =
      if truthyName doc = some n then 0 else firstIdx rest n + 1 := by
  by_cases h : truthyName doc = some n <;> simp [firstIdx, List.findIdx_cons, h]

theorem freshNames_congr : ∀ (rc : List (Document × ℚ)) (s1 s2 : List String),
    (∀ x, x ∈ s1 ↔ x ∈ s2) → freshNames s1 rc = freshNames s2 rc
  | [], _, _, _ => rfl
  | (doc, score) :: rest, s1, s2, h => by
    cases htn : truthyName doc with
    | none => simp only [freshNames, htn, freshNames_congr rest s1 s2 h]
    | some n =>
      by_cases hn : n ∈ s1
      · simp only [freshNames, htn, if_pos hn, if_pos ((h n).mp hn),
          freshNames_congr rest s1 s2 h]
      · have hn2 : n ∉ s2 := fun h2 => hn ((h n).mpr h2)
        have h3 : ∀ x, x ∈ n :: s1 ↔ x ∈ n :: s2 := by
          intro x
          simp [h x]
        simp only [freshNames, htn, if_neg hn, if_neg hn2,
          freshNames_congr rest (n :: s1) (n :: s2) h3]

theorem freshNames_not_mem : ∀ (rc : List (Document × ℚ)) (seen : List String) (n : String),
    n ∈ freshNames seen rc → n ∉ seen
  | [], _, _, h => by simp [freshNames] at h
  | (doc, score) :: rest, seen, n, h => by
    cases htn : truthyName doc with
    | none =>
      rw [freshNames, htn] at h
      exact freshNames_not_mem rest seen n h
    | some n0 =>
      simp only [freshNames, htn] at h
      by_cases h0 : n0 ∈ seen
      · rw [if_pos h0] at h
        exact freshNames_not_mem rest seen n h
      · rw [if_neg h0] at h
        rcases List.mem_cons.mp h with h2 | h2
        · subst h2
          exact h0
        · have h3 := freshNames_not_mem rest (n0 :: seen) n h2
          exact fun h4 => h3 (List.mem_cons_of_mem n0 h4)

theorem firstIdx_cons_ne {doc : Document} {score : ℚ} {rest : List (Document × ℚ)}
    {n : String} (h : truthyName doc ≠ some n) :
    firstIdx ((doc, score) :: rest) n = firstIdx rest n + 1 := by
  rw [firstIdx_cons, if_neg h]

/-- Names collected in first-seen order respect the first-appearance
index: a name first seen strictly earlier comes strictly earlier. -/
theorem freshNames_order : ∀ (rc : List (Document × ℚ)) (seen : List String) (n1 n2 : String),
    n1 ∈ freshNames seen rc → n2 ∈ freshNames seen rc →
    firstIdx rc n1 < firstIdx rc n2 → List.Sublist [n1, n2] (freshNames seen rc)
  | [], seen, n1, n2, h1, _, _ => by simp [freshNames] at h1
  | (doc, score) :: rest, seen, n1, n2, h1, h2, hlt => by
    cases htn : truthyName doc with
    | none =>
      simp only [freshNames, htn] at h1 h2 ⊢
      have e1 : firstIdx ((doc, score) :: rest) n1 = firstIdx rest n1 + 1 :=
        firstIdx_cons_ne (by rw [htn]; simp)
      have e2 : firstIdx ((doc, score) :: rest) n2 = firstIdx rest n2 + 1 :=
        firstIdx_cons_ne (by rw [htn]; simp)
      rw [e1, e2] at hlt
      exact freshNames_order rest seen n1 n2 h1 h2 (by omega)
    | some n0 =>
      simp only [freshNames, htn] at h1 h2 ⊢
      by_cases h0 : n0 ∈ seen
      · rw [if_pos h0] at h1 h2 ⊢
        have hn1 : n1 ≠ n0 := fun he => (freshNames_not_mem rest seen n1 h1) (he ▸ h0)
        have hn2 : n2 ≠ n0 := fun he => (freshNames_not_mem rest seen n2 h2) (he ▸ h0)
        have e1 : firstIdx ((doc, score) :: rest) n1 = firstIdx rest n1 + 1 :=
          firstIdx_cons_ne (by rw [htn]; simp; exact fun he => hn1 he.symm)
        have e2 : firstIdx ((doc, score) :: rest) n2 = firstIdx rest n2 + 1 :=
          firstIdx_cons_ne (by rw [htn]; simp; exact fun he => hn2 he.symm)
        rw [e1, e2] at hlt
        exact freshNames_order rest seen n1 n2 h1 h2 (by omega)
      · rw [if_neg h0] at h1 h2 ⊢
        have hidx0 : firstIdx ((doc, score) :: rest) n0 = 0 := by
          rw [firstIdx_cons, if_pos htn]
        by_cases hn2 : n2 = n0
        · subst hn2
          rw [hidx0] at hlt
          omega
        · by_cases hn1 : n1 = n0
          · subst hn1
            have h2b : n2 ∈ freshNames (n1 :: seen) rest := by
              rcases List.mem_cons.mp h2 with h3 | h3
              · exact absurd h3 hn2
              · exact h3
            exact List.Sublist.cons₂ n1 (List.singleton_sublist.mpr h2b)
          · have h1b : n1 ∈ freshNames (n0 :: seen) rest := by
              rcases List.mem_cons.mp h1 with h3 | h3
              · exact absurd h3 hn1
              · exact h3
            have h2b : n2 ∈ freshNames (n0 :: seen) rest := by
              rcases List.mem_cons.mp h2 with h3 | h3
              · exact absurd h3 hn2
              · exact h3
            have e1 : firstIdx ((doc, score) :: rest) n1 = firstIdx rest n1 + 1 :=
              firstIdx_cons_ne (by rw [htn]; simp; exact fun he => hn1 he.symm)
            have e2 : firstIdx ((doc, score) :: rest) n2 = firstIdx rest n2 + 1 :=
              firstIdx_cons_ne (by rw [htn]; simp; exact fun he => hn2 he.symm)
            rw [e1, e2] at hlt
            exact List.Sublist.cons n0
              (freshNames_order rest (n0 :: seen) n1 n2 h1b h2b (by omega))

/-- The keys of the grouping loop result are the keys already present
followed by the fresh names in first-seen order. -/
theorem aggKeys_accAux : ∀ (rc : List (Document × ℚ)) (m : List (String × MemberAgg)),
    aggKeys (accAux m rc) = aggKeys m ++ freshNames (aggKeys m) rc
  | [], m => by simp [accAux, freshNames]
  | (doc, score) :: rest, m => by
    cases htn : truthyName doc with
    | none =>
      simp only [accAux, htn, aggKeys_accAux rest m, freshNames]
    | some n0 =>
      simp only [accAux, htn, aggKeys_accAux rest (updateAgg m n0 score doc.page_content),
        freshNames, aggKeys_updateAgg]
      by_cases h0 : n0 ∈ aggKeys m
      · rw [if_pos h0, if_pos h0]
      · rw [if_neg h0, if_neg h0]
        have hcongr : freshNames (aggKeys m ++ [n0]) rest = freshNames (n0 :: aggKeys m) rest :=
          freshNames_congr rest _ _ (by intro x; simp [or_comm])
        rw [hcongr, List.append_assoc]
        rfl

/-- In an association list with nodup keys, the order of two entries is
determined by the order of their keys. -/
theorem pair_sublist_of_aggKeys : ∀ (l : List (String × MemberAgg)) (e1 e2 : String × MemberAgg),
    (aggKeys l).Nodup → e1 ∈ l → e2 ∈ l →
    List.Sublist [e1.1, e2.1] (aggKeys l) → List.Sublist [e1, e2] l
  | [], e1, _, _, h1, _, _ => by simp at h1
  | x :: t, e1, e2, hnd, h1, h2, hsub => by
    have hx : x.1 ∉ aggKeys t := by
      simp only [aggKeys, List.map_cons, List.nodup_cons] at hnd
      simpa [aggKeys] using hnd.1
    have hndt : (aggKeys t).Nodup := by
      simp only [aggKeys, List.map_cons, List.nodup_cons] at hnd
      simpa [aggKeys] using hnd.2
    have hks : aggKeys (x :: t) = x.1 :: aggKeys t := rfl
    rw [hks] at hsub
    rcases List.sublist_cons_iff.mp hsub with hcase | ⟨r, hr, hrsub⟩
    · have hm1 : e1.1 ∈ aggKeys t := hcase.subset (by simp)
      have hm2 : e2.1 ∈ aggKeys t := hcase.subset (by simp)
      have he1 : e1 ∈ t := by
        rcases List.mem_cons.mp h1 with h3 | h3
        · exact absurd (h3 ▸ hm1) hx
        · exact h3
      have he2 : e2 ∈ t := by
        rcases List.mem_cons.mp h2 with h3 | h3
        · exact absurd (h3 ▸ hm2) hx
        · exact h3
      exact List.Sublist.cons x (pair_sublist_of_aggKeys t e1 e2 hndt he1 he2 hcase)
    · have hr1 : e1.1 = x.1 := by
        have := congrArg (fun l => l.head?) hr
        simpa using this
      have hr2 : r = [e2.1] := by
        have := congrArg (fun l => l.tail) hr
        simpa using this.symm
      subst hr2
      have hm2 : e2.1 ∈ aggKeys t := hrsub.subset (by simp)
      have he1 : e1 = x := by
        rcases List.mem_cons.mp h1 with h3 | h3
        · exact h3
        · exact absurd (hr1 ▸ List.mem_map_of_mem Prod.fst h3) hx
      have he2 : e2 ∈ t := by
        rcases List.mem_cons.mp h2 with h3 | h3
        · rw [h3] at hm2
          exact absurd hm2 hx
        · exact h3
      rw [he1]
      exact List.Sublist.cons₂ x (List.singleton_sublist.mpr he2)

/-- Membership in the ranked output, unfolded to the per-entity fold of
the grouping loop. -/
theorem mem_group_and_rank {rc : List (Document × ℚ)} {p : RankedProfile}
    (hp : p ∈ group_and_rank_profiles rc) :
    entityPairs rc p.member_name ≠ [] ∧
    p = mkProfile (p.member_name, extendAgg ⟨0, 0, []⟩ (entityPairs rc p.member_name)) := by
  have hp2 : p ∈ (accumulate rc).map mkProfile :=
    (List.perm_insertionSort profGE _).mem_iff.mp hp
  rcases List.mem_map.mp hp2 with ⟨e, he, hmk⟩
  have hname : p.member_name = e.1 := by rw [← hmk]; rfl
  have he2 : (e.1, e.2) ∈ accumulate rc := by simpa using he
  rcases mem_accumulate rc he2 with ⟨hne, hagg⟩
  rw [hname]
  refine ⟨hne, ?_⟩
  rw [← hmk, ← hagg]

/-- The fields of a profile of the ranked output. -/
theorem group_and_rank_fields {rc : List (Document × ℚ)} {p : RankedProfile}
    (hp : p ∈ group_and_rank_profiles rc) :
    entityPairs rc p.member_name ≠ [] ∧
    p.total_score = ((entityPairs rc p.member_name).map (fun pr => 1 - pr.2)).sum ∧
    p.chunk_count = (entityPairs rc p.member_name).length ∧
    p.chunks = (entityPairs rc p.member_name).map (fun pr => pr.1.page_content) ∧
    p.match_score_percent =
      pyRound2 (p.total_score / (p.chunk_count : ℚ) * 100) := by
  rcases mem_group_and_rank hp with ⟨hne, hmk⟩
  refine ⟨hne, ?_, ?_, ?_, ?_⟩
  · rw [hmk]
    simp [mkProfile, extendAgg_total]
  · rw [hmk]
    simp [mkProfile, extendAgg_count]
  · rw [hmk]
    simp [mkProfile, extendAgg_chunks]
  · conv_lhs => rw [hmk]
    rw [hmk]
    simp [mkProfile]

/-! ## Claims about group_and_rank_profiles -/

/-- C1: for every list of retrieved (chunk, distance) pairs, the
aggregator scores each ranked entity as round(100 * mean of (1 - d) over
that entity's matches, 2), d being the raw distance of the match. -/
theorem C1_entity_score_formula (rc : List (Document × ℚ)) (p : RankedProfile)
    (hp : p ∈ group_and_rank_profiles rc) :
    p.match_score_percent =
      pyRound2 (100 * mean ((entityDists rc p.member_name).map (fun d => 1 - d))) := by
  rcases group_and_rank_fields hp with ⟨hne, ht, hc, _, hm⟩
  have hmap : (entityDists rc p.member_name).map (fun d => 1 - d) =
      (entityPairs rc p.member_name).map (fun pr => 1 - pr.2) := by
    simp [entityDists, List.map_map, Function.comp]
  rw [hm, ht, hc, mean, hmap, List.length_map]
  congr 1
  ring

/-- C1 witness: a single retrieved chunk for entity A at distance 0. -/
theorem C1_witness :
    (RankedProfile.mk "A" 1 1 ["a"] 100).match_score_percent =
      pyRound2 (100 * mean ((entityDists [(⟨"a", some "A"⟩, 0)] "A").map (fun d => 1 - d))) := by
  have hout : group_and_rank_profiles [(⟨"a", some "A"⟩, 0)] =
      [RankedProfile.mk "A" 1 1 ["a"] 100] := by
    norm_num [group_and_rank_profiles, accumulate, accAux, truthyName, updateAgg, bump,
      mkProfile, pyRound2, roundHalfEven, List.insertionSort, List.orderedInsert, profGE]
  exact C1_entity_score_formula [(⟨"a", some "A"⟩, 0)] (RankedProfile.mk "A" 1 1 ["a"] 100)
    (by rw [hout]; simp)

/-- C2: the ranked output is sorted descending by match_score_percent and
the sort is stable: profiles with equal score keep the relative order of
their entities' first appearance in the retrieved sequence. -/
theorem C2_sorted_and_stable (rc : List (Document × ℚ)) :
    List.Sorted profGE (group_and_rank_profiles rc) ∧
    ∀ p q : RankedProfile, p ∈ group_and_rank_profiles rc → q ∈ group_and_rank_profiles rc →
      p.match_score_percent = q.match_score_percent →
      firstIdx rc p.member_name < firstIdx rc q.member_name →
      List.Sublist [p, q] (group_and_rank_profiles rc) := by
  constructor
  · exact List.sorted_insertionSort profGE _
  · intro p q hp hq heq hlt
    have hp2 : p ∈ (accumulate rc).map mkProfile :=
      (List.perm_insertionSort profGE _).mem_iff.mp hp
    have hq2 : q ∈ (accumulate rc).map mkProfile :=
      (List.perm_insertionSort profGE _).mem_iff.mp hq
    rcases List.mem_map.mp hp2 with ⟨e1, he1, hmk1⟩
    rcases List.mem_map.mp hq2 with ⟨e2, he2, hmk2⟩
    have hn1 : p.member_name = e1.1 := by rw [← hmk1]; rfl
    have hn2 : q.member_name = e2.1 := by rw [← hmk2]; rfl
    have hkeys : aggKeys (accumulate rc) = freshNames [] rc := by
      have h := aggKeys_accAux rc []
      simpa [aggKeys, accumulate] using h
    have hm1 : e1.1 ∈ freshNames [] rc := by
      rw [← hkeys]
      exact List.mem_map_of_mem Prod.fst he1
    have hm2 : e2.1 ∈ freshNames [] rc := by
      rw [← hkeys]
      exact List.mem_map_of_mem Prod.fst he2
    have horder : List.Sublist [e1.1, e2.1] (freshNames [] rc) :=
      freshNames_order rc [] e1.1 e2.1 hm1 hm2 (by rw [← hn1, ← hn2]; exact hlt)
    have hpair : List.Sublist [e1, e2] (accumulate rc) :=
      pair_sublist_of_aggKeys _ e1 e2 (nodup_aggKeys_accumulate rc) he1 he2
        (by rw [hkeys]; exact horder)
    have hmap : List.Sublist [p, q] ((accumulate rc).map mkProfile) := by
      have h2 := hpair.map mkProfile
      simpa [hmk1, hmk2] using h2
    exact List.pair_sublist_insertionSort (le_of_eq heq.symm) hmap

/-- C2 witness: two entities with equal scores keep first-seen order. -/
theorem C2_witness :
    List.Sublist [RankedProfile.mk "A" 1 1 ["a"] 100, RankedProfile.mk "B" 1 1 ["b"] 100]
      (group_and_rank_profiles [(⟨"a", some "A"⟩, 0), (⟨"b", some "B"⟩, 0)]) := by
  have hout : group_and_rank_profiles [(⟨"a", some "A"⟩, 0), (⟨"b", some "B"⟩, 0)] =
      [RankedProfile.mk "A" 1 1 ["a"] 100, RankedProfile.mk "B" 1 1 ["b"] 100] := by
    norm_num [group_and_rank_profiles, accumulate, accAux, truthyName, updateAgg, bump,
      mkProfile, pyRound2, roundHalfEven, List.insertionSort, List.orderedInsert, profGE]
  exact (C2_sorted_and_stable [(⟨"a", some "A"⟩, 0), (⟨"b", some "B"⟩, 0)]).2
    (RankedProfile.mk "A" 1 1 ["a"] 100) (RankedProfile.mk "B" 1 1 ["b"] 100)
    (by rw [hout]; simp) (by rw [hout]; simp) rfl (by decide)

/-- C3 counterexample: with a raw distance of 2 (the index metric is not
guaranteed to stay within [0, 1]) the single ranked profile gets a
match_score_percent of -100, outside the claimed 0 to 100 range. -/
theorem C3_counterexample :
    ∃ p ∈ group_and_rank_profiles [(⟨"c", some "A"⟩, 2)],
      ¬ (0 ≤ p.match_score_percent ∧ p.match_score_percent ≤ 100) := by
  have hout : group_and_rank_profiles [(⟨"c", some "A"⟩, 2)] =
      [RankedProfile.mk "A" (-1) 1 ["c"] (-100)] := by
    norm_num [group_and_rank_profiles, accumulate, accAux, truthyName, updateAgg, bump,
      mkProfile, pyRound2, roundHalfEven, List.insertionSort, List.orderedInsert, profGE]
  refine ⟨RankedProfile.mk "A" (-1) 1 ["c"] (-100), by rw [hout]; simp, ?_⟩
  norm_num

/-- C3 (amended): match_score_percent lies in the 0 to 100 range whenever
every raw distance returned by the index lies in [0, 1]; the code does
not clamp, and a distance above 1 makes the score negative. -/
theorem C3_score_range (rc : List (Document × ℚ))
    (hd : ∀ pr ∈ rc, 0 ≤ pr.2 ∧ pr.2 ≤ 1) :
    ∀ p ∈ group_and_rank_profiles rc,
      0 ≤ p.match_score_percent ∧ p.match_score_percent ≤ 100 := by
  intro p hp
  rcases group_and_rank_fields hp with ⟨hne, ht, hc, _, hm⟩
  have hsub : ∀ pr ∈ entityPairs rc p.member_name, 0 ≤ pr.2 ∧ pr.2 ≤ 1 :=
    fun pr hpr => hd pr (List.mem_of_mem_filter hpr)
  have hlen : 0 < (entityPairs rc p.member_name).length := List.length_pos.mpr hne
  have hsum0 : 0 ≤ ((entityPairs rc p.member_name).map (fun pr => 1 - pr.2)).sum := by
    apply List.sum_nonneg
    intro x hx
    rcases List.mem_map.mp hx with ⟨pr, hpr, rfl⟩
    have h2 := (hsub pr hpr).2
    linarith
  have hsum1 : ((entityPairs rc p.member_name).map (fun pr => 1 - pr.2)).sum ≤
      ((entityPairs rc p.member_name).length : ℚ) := by
    have h2 : ∀ x ∈ (entityPairs rc p.member_name).map (fun pr => 1 - pr.2), x ≤ (1 : ℚ) := by
      intro x hx
      rcases List.mem_map.mp hx with ⟨pr, hpr, rfl⟩
      have h3 := (hsub pr hpr).1
      linarith
    have h4 := List.sum_le_card_nsmul _ 1 h2
    simpa [List.length_map, nsmul_eq_mul] using h4
  have hcast : (0 : ℚ) < ((entityPairs rc p.member_name).length : ℚ) := by
    exact_mod_cast hlen
  have hq0 : 0 ≤ p.total_score / (p.chunk_count : ℚ) * 100 := by
    rw [ht, hc]
    have h5 : 0 ≤ ((entityPairs rc p.member_name).map (fun pr => 1 - pr.2)).sum /
        ((entityPairs rc p.member_name).length : ℚ) := div_nonneg hsum0 (le_of_lt hcast)
    linarith
  have hq1 : p.total_score / (p.chunk_count : ℚ) * 100 ≤ 100 := by
    rw [ht, hc]
    have h5 : ((entityPairs rc p.member_name).map (fun pr => 1 - pr.2)).sum /
        ((entityPairs rc p.member_name).length : ℚ) ≤ 1 := (div_le_one hcast).mpr hsum1
    linarith
  rw [hm]
  exact ⟨pyRound2_nonneg hq0, pyRound2_le_100 hq1⟩

/-- C3 witness for the amended claim: a distance of 0 gives score 100. -/
theorem C3_witness :
    0 ≤ (RankedProfile.mk "A" 1 1 ["a"] 100).match_score_percent ∧
    (RankedProfile.mk "A" 1 1 ["a"] 100).match_score_percent ≤ 100 := by
  have hout : group_and_rank_profiles [(⟨"a", some "A"⟩, 0)] =
      [RankedProfile.mk "A" 1 1 ["a"] 100] := by
    norm_num [group_and_rank_profiles, accumulate, accAux, truthyName, updateAgg, bump,
      mkProfile, pyRound2, roundHalfEven, List.insertionSort, List.orderedInsert, profGE]
  refine C3_score_range [(⟨"a", some "A"⟩, 0)] ?_ (RankedProfile.mk "A" 1 1 ["a"] 100)
    (by rw [hout]; simp)
  intro pr hpr
  rw [List.mem_singleton] at hpr
  subst hpr
  norm_num

/-- C4: every ranked profile has at least one contributing chunk, an
entity with no retrieved chunks never appears, and the empty retrieved
list yields the empty ranked sequence rather than an error. -/
theorem C4_contributing_chunks (rc : List (Document × ℚ)) :
    group_and_rank_profiles [] = [] ∧
    ∀ p ∈ group_and_rank_profiles rc, p.chunks ≠ [] ∧ entityPairs rc p.member_name ≠ [] := by
  refine ⟨rfl, ?_⟩
  intro p hp
  rcases group_and_rank_fields hp with ⟨hne, _, _, hch, _⟩
  refine ⟨?_, hne⟩
  rw [hch]
  intro h2
  exact hne (List.map_eq_nil_iff.mp h2)

/-- C4 witness: one retrieved chunk yields a profile with a chunk. -/
theorem C4_witness :
    (RankedProfile.mk "A" 1 1 ["a"] 100).chunks ≠ [] ∧
    entityPairs [(⟨"a", some "A"⟩, 0)] "A" ≠ [] := by
  have hout : group_and_rank_profiles [(⟨"a", some "A"⟩, 0)] =
      [RankedProfile.mk "A" 1 1 ["a"] 100] := by
    norm_num [group_and_rank_profiles, accumulate, accAux, truthyName, updateAgg, bump,
      mkProfile, pyRound2, roundHalfEven, List.insertionSort, List.orderedInsert, profGE]
  exact (C4_contributing_chunks [(⟨"a", some "A"⟩, 0)]).2
    (RankedProfile.mk "A" 1 1 ["a"] 100) (by rw [hout]; simp)

/-- C9: a retrieved chunk whose document lacks a member_name key, or has
a falsy (empty) value, is silently excluded: removing it from the input
leaves the whole ranked output unchanged, so it contributes to no score,
no chunk list, and no profile. -/
theorem C9_falsy_name_excluded (rc1 rc2 : List (Document × ℚ)) (doc : Document) (s : ℚ)
    (h : doc.member_name = none ∨ doc.member_name = some "") :
    group_and_rank_profiles (rc1 ++ (doc, s) :: rc2) = group_and_rank_profiles (rc1 ++ rc2) := by
  have h2 : truthyName doc = none := by
    rcases h with h | h <;> simp [truthyName, h]
  have haux : ∀ m, accAux m (rc1 ++ (doc, s) :: rc2) = accAux m (rc1 ++ rc2) := by
    induction rc1 with
    | nil => intro m; simp [accAux, h2]
    | cons x t ih =>
      intro m
      rcases x with ⟨d2, s2⟩
      cases htn : truthyName d2 <;> simp [accAux, htn, ih]
  unfold group_and_rank_profiles accumulate
  rw [haux []]

/-- C9 witness: a document with no member_name key is dropped. -/
theorem C9_witness :
    group_and_rank_profiles ([(⟨"a", some "A"⟩, 0)] ++ (⟨"x", none⟩, 7) :: []) =
      group_and_rank_profiles ([(⟨"a", some "A"⟩, 0)] ++ []) :=
  C9_falsy_name_excluded [(⟨"a", some "A"⟩, 0)] [] ⟨"x", none⟩ 7 (Or.inl rfl)

/-! ## Claims about the index query, persistence, chunking and ingestion -/

/-- C5: a query returns at most k results ordered by ascending distance,
and a k at least the corpus size returns the whole scored corpus rather
than raising an error. -/
theorem C5_query_bounds (embed : String → List ℚ) (idx : VectorIndex) (text : String) (k : ℕ) :
    (find_top_matches embed text idx k).length ≤ k ∧
    List.Sorted distLE (find_top_matches embed text idx k) ∧
    (idx.entries.length ≤ k →
      List.Perm (find_top_matches embed text idx k)
        (idx.entries.map (fun e => (e.1, sqDist (embed text) e.2)))) := by
  refine ⟨?_, ?_, ?_⟩
  · simp only [find_top_matches, similarity_search_with_score, List.length_take]
    exact min_le_left _ _
  · have hs := List.sorted_insertionSort distLE
      (idx.entries.map (fun e => (e.1, sqDist (embed text) e.2)))
    exact hs.sublist (List.take_sublist _ _)
  · intro hk
    unfold find_top_matches similarity_search_with_score
    rw [List.take_of_length_le (by simpa [List.length_insertionSort] using hk)]
    exact List.perm_insertionSort distLE _

/-- C5 witness: a two-entry corpus queried with k = 5. -/
theorem C5_witness :
    List.Perm
      (find_top_matches (fun _ => [0]) "q"
        (VectorIndex.mk [(⟨"a", some "A"⟩, [0]), (⟨"b", some "B"⟩, [1])]) 5)
      ((VectorIndex.mk [(⟨"a", some "A"⟩, [0]), (⟨"b", some "B"⟩, [1])]).entries.map
        (fun e => (e.1, sqDist ((fun _ => ([0] : List ℚ)) "q") e.2))) :=
  (C5_query_bounds (fun _ => [0]) (VectorIndex.mk [(⟨"a", some "A"⟩, [0]), (⟨"b", some "B"⟩, [1])])
    "q" 5).2.2 (by decide)

/-- C6: saving an index and loading the snapshot back gives an index
whose query results are identical to the pre-save index for every query
text and k, given the same embedding model. -/
theorem C6_save_load_roundtrip (idx : VectorIndex) (embed : String → List ℚ)
    (text : String) (k : ℕ) :
    find_top_matches embed text (load_local (save_local idx)) k =
      find_top_matches embed text idx k := by
  have h : load_local (save_local idx) = idx := by
    unfold load_local save_local
    cases idx with
    | mk entries => exact congrArg VectorIndex.mk (Eq.symm (List.zip_of_prod rfl rfl))
  rw [h]

/-- C7: a document no longer than chunk_size is chunked into exactly one
chunk equal to the whole document. -/
theorem C7_single_chunk (chunkSize overlap : ℕ) (s : List Char)
    (h1 : overlap < chunkSize) (h2 : s.length ≤ chunkSize) :
    splitText chunkSize overlap s = [s] := by
  unfold splitText
  rw [dif_neg (Nat.not_le.mpr h1), dif_pos h2]

/-- C7 witness: a two-character document with chunk_size 1000. -/
theorem C7_witness : splitText 1000 200 ['h', 'i'] = [['h', 'i']] :=
  C7_single_chunk 1000 200 ['h', 'i'] (by decide) (by decide)

/-- C8: an entity whose concatenated profile text is empty or whitespace
only is skipped: it contributes no chunks and removing it leaves every
other entity's documents unchanged, so the run does not fail. -/
theorem C8_blank_profile_skipped (ps1 ps2 : List (String × String)) (name text : String)
    (h : text.toList.all Char.isWhitespace = true) :
    create_faiss_documents (ps1 ++ (name, text) :: ps2) =
      create_faiss_documents (ps1 ++ ps2) := by
  induction ps1 with
  | nil => simp only [List.nil_append, create_faiss_documents, h, if_true]
  | cons x t ih =>
    rcases x with ⟨n2, t2⟩
    by_cases h2 : t2.toList.all Char.isWhitespace <;>
      simp [create_faiss_documents, h2, ih]

/-- C8 witness: a whitespace-only profile between processed profiles. -/
theorem C8_witness :
    create_faiss_documents ([] ++ ("A", "  ") :: [("B", "hi")]) =
      create_faiss_documents ([] ++ [("B", "hi")]) :=
  C8_blank_profile_skipped [] [("B", "hi")] "A" "  " (by decide)

/-- C10: the ticket retrieval step keeps only neighbours whose similarity
1 - distance strictly exceeds 0.3 (equivalently distance below 0.7),
silently dropping the rest so the result can be shorter than n_results,
and truncates each kept document to at most 300 characters plus an
ellipsis. -/
theorem C10_similarity_filter (results : List (List Char × TicketMeta × ℚ)) :
    (∀ t ∈ get_similar_tickets results,
      3/10 < t.similarity ∧
      t.document_content.length ≤ 303 ∧
      ∃ doc meta dist, (doc, meta, dist) ∈ results ∧ dist < 7/10 ∧
        t.similarity = 1 - dist ∧
        t.document_content = (if 300 < doc.length then doc.take 300 ++ "...".toList else doc)) ∧
    (get_similar_tickets results).length ≤ results.length := by
  constructor
  · intro t ht
    rcases List.mem_filterMap.mp ht with ⟨⟨doc, meta, dist⟩, hmem, hf⟩
    dsimp only [get_similar_tickets] at hf
    by_cases hcond : 3/10 < 1 - dist
    · rw [if_pos hcond] at hf
      have ht2 := Option.some.inj hf
      subst ht2
      refine ⟨hcond, ?_, doc, meta, dist, hmem, by linarith, rfl, rfl⟩
      by_cases hlong : 300 < doc.length
      · simp only [hlong, if_true, List.length_append, List.length_take]
        have h3 : ("...".toList).length = 3 := by decide
        omega
      · simp only [hlong, if_false]
        omega
    · rw [if_neg hcond] at hf
      exact absurd hf (by simp)
  · exact List.length_filterMap_le _ _

/-- C10 witness: one neighbour at distance 0 is kept, one at distance 1
is dropped. -/
theorem C10_witness :
    3/10 < (SimilarTicket.mk 1 "" "" "" "" "" "" "" "" "" "" "" ['h']).similarity ∧
    (SimilarTicket.mk 1 "" "" "" "" "" "" "" "" "" "" "" ['h']).document_content.length ≤ 303 ∧
    ∃ doc meta dist,
      (doc, meta, dist) ∈
        [(['h'], TicketMeta.mk none none none none none none none none none none none, (0 : ℚ)),
         (['x'], TicketMeta.mk none none none none none none none none none none none, 1)] ∧
      dist < 7/10 ∧
      (SimilarTicket.mk 1 "" "" "" "" "" "" "" "" "" "" "" ['h']).similarity = 1 - dist ∧
      (SimilarTicket.mk 1 "" "" "" "" "" "" "" "" "" "" "" ['h']).document_content =
        (if 300 < doc.length then doc.take 300 ++ "...".toList else doc) := by
  have hout : get_similar_tickets
      [(['h'], TicketMeta.mk none none none none none none none none none none none, (0 : ℚ)),
       (['x'], TicketMeta.mk none none none none none none none none none none none, 1)] =
      [SimilarTicket.mk 1 "" "" "" "" "" "" "" "" "" "" "" ['h']] := by
    norm_num [get_similar_tickets, List.filterMap_cons]
  exact (C10_similarity_filter
      [(['h'], TicketMeta.mk none none none none none none none none none none none, (0 : ℚ)),
       (['x'], TicketMeta.mk none none none none none none none none none none none, 1)]).1
    (SimilarTicket.mk 1 "" "" "" "" "" "" "" "" "" "" "" ['h']) (by rw [hout]; simp)
